import Mathlib

/-!
# Verification of the pwptr task runner's core logic

Shallow embedding of the pwptr CLI's configuration-path resolution,
task-registry merge, task-set normalization, profile `exts` validation
and cookie-file deletion dispatch, with theorems checking the spec's
claims about them.

Paths are modelled as `List Char` (JavaScript strings), the registry as
association lists in insertion order (JavaScript objects preserve
string-key insertion order), and fatal `process.exit(1)` calls as
`Option`/`Except` failure.
-/

/-! ## Definitions

### Path resolution (`resolveConfigPath`) -/

/-- The literal placeholder `\x7bHOME\x7d`, built without brace characters in
string literals. -/
def homePlaceholder : List Char := ['{'] ++ "HOME".toList ++ ['}']

/-- JavaScript `String.prototype.replace` with a *string* pattern: replaces
only the first occurrence of `pat` (scanning left to right), treating the
replacement as literal text. -/
def replaceFirst (pat repl : List Char) : List Char → List Char
  | [] => []
  | c :: rest =>
    if pat.isPrefixOf (c :: rest) then repl ++ (c :: rest).drop pat.length
    else c :: replaceFirst pat repl rest

/-- Test whether `pat` occurs as a contiguous sublist, by the same scan as
`replaceFirst`. -/
def containsPat (pat : List Char) : List Char → Bool
  | [] => false
  | c :: rest => pat.isPrefixOf (c :: rest) || containsPat pat rest

/-- The regex `^(\.|\/)` of the source: first character is `.` or `/`. -/
def regexDotOrSlash : List Char → Bool
  | [] => false
  | c :: _ => c = '.' || c = '/'

/-- The regex `^\.\x7b1,2\x7d\/` of the source: the path starts with `./` or
`../`. -/
def regexRelPrefix (l : List Char) : Bool :=
  ['.', '/'].isPrefixOf l || ['.', '.', '/'].isPrefixOf l

/-- The last two steps of `resolveConfigPath` (after the placeholder
substitution):

    if (!/^(\.|\/)/.test(p)) \x7b p = './' + p \x7d
    if (/^\.\x7b1,2\x7d\//.test(p)) \x7b p = path.resolve(configDir + '/' + p) \x7d
    return p

`path.resolve` is Node's library routine, external to this repository; it
is taken as a parameter `pathResolve`. -/
def resolveConfigPathTail (pathResolve : List Char → List Char)
    (configDir p1 : List Char) : List Char :=
  let p2 := if regexDotOrSlash p1 then p1 else '.' :: '/' :: p1
  if regexRelPrefix p2 then pathResolve (configDir ++ '/' :: p2) else p2

/-- Full `resolveConfigPath` from the source, whose first step is
`p = p.replace('\x7bHOME\x7d', process.env.HOME)`. `home` is
`process.env.HOME` and `configDir` the installation base directory. -/
def resolveConfigPath (pathResolve : List Char → List Char)
    (home configDir : List Char) (p : List Char) : List Char :=
  resolveConfigPathTail pathResolve configDir (replaceFirst homePlaceholder home p)

/-- The `profilesDir` default of the source when the user omits it:
`config.profilesDir = config.tasksDir + '../.chrome-profiles'`, followed by
`config.profilesDir = resolveConfigPath(config.profilesDir)`. -/
def defaultProfilesDir (pathResolve : List Char → List Char)
    (home configDir tasksDir : List Char) : List Char :=
  resolveConfigPath pathResolve home configDir
    (tasksDir ++ "../.chrome-profiles".toList)

/-- A path with the placeholder on both sides of `a`; used to exhibit the
single-replacement behaviour of JavaScript `String.replace`. -/
def doubleHomePath : List Char := homePlaceholder ++ "a".toList ++ homePlaceholder

/-! ### Task registry (`parseTaskFiles`)

Task entries are the values exported by task modules. The `run` function
(a browser-driving operation) plays no role in the registry or
normalization logic and is omitted. The registry objects
`exportedTasks` and `exportedTasksNamespaces` are modelled as lists in
insertion order; JavaScript property lookups on them are membership
tests (a lookup of `undefined` — an entry without a namespace — is
falsy and modelled as no collision). -/

/-- A task entry exported by a task module: `\x7bnamespace?, description\x7d`. -/
structure TaskEntry where
  «namespace» : Option String
  description : String
deriving DecidableEq

/-- The two module-level registries of the source, `exportedTasks` (an
insertion-ordered map from task name to entry) and
`exportedTasksNamespaces` (the hash of namespace labels). -/
structure RegState where
  exportedTasks : List (String × TaskEntry)
  exportedTasksNamespaces : List String
deriving DecidableEq

/-- Both registries start empty. -/
def emptyRegState : RegState := ⟨[], []⟩

/-- Truthiness of the lookup `exportedTasks[x]` (task objects are truthy). -/
def isTaskName (st : RegState) (x : String) : Bool :=
  st.exportedTasks.any (fun p => p.1 == x)

/-- Truthiness of the lookup `exportedTasksNamespaces[x]` (only nonempty
labels are ever stored, so stored values are truthy). -/
def isNamespaceLabel (st : RegState) (x : String) : Bool :=
  st.exportedTasksNamespaces.any (fun n => n == x)

/-- One iteration of the merge loop in `parseTaskFiles`:

    let n = value.namespace
    if (exportedTasks[key] || exportedTasks[n]) \x7b error; exit \x7d
    else \x7b if (n) \x7b exportedTasksNamespaces[n] = n \x7d; exportedTasks[key] = value \x7d

The collision check compares the new key and the new entry's namespace
against registered *task names* only. `if (n)` skips a missing or empty
(falsy) namespace. -/
def registerEntry (st : RegState) (key : String) (value : TaskEntry) : Option RegState :=
  if isTaskName st key
      || (match value.«namespace» with
          | some n => isTaskName st n
          | none => false) then
    none
  else
    some { exportedTasks := st.exportedTasks ++ [(key, value)],
           exportedTasksNamespaces :=
             match value.«namespace» with
             | some n =>
               if n = "" then st.exportedTasksNamespaces
               else st.exportedTasksNamespaces ++ [n]
             | none => st.exportedTasksNamespaces }

/-- The inner `for (const [key, value] of Object.entries(modExports))` loop. -/
def registerEntries (st : RegState) : List (String × TaskEntry) → Option RegState
  | [] => some st
  | (k, v) :: rest =>
    match registerEntry st k v with
    | none => none
    | some st2 => registerEntries st2 rest

/-- The outer loop over the task-definition files of the tasks directory. -/
def registerFiles (st : RegState) : List (List (String × TaskEntry)) → Option RegState
  | [] => some st
  | m :: ms =>
    match registerEntries st m with
    | none => none
    | some st2 => registerFiles st2 ms

/-- Merge of all modules' exports (`parseTaskFiles`), failing when zero
tasks were registered. -/
def parseTaskFiles (modules : List (List (String × TaskEntry))) : Option RegState :=
  match registerFiles emptyRegState modules with
  | none => none
  | some st => if st.exportedTasks.isEmpty then none else some st

/-- The registry invariant actually maintained by the merge: task names are
pairwise distinct, and no entry's declared namespace equals the name of an
entry registered before it. -/
def RegistryInv (st : RegState) : Prop :=
  st.exportedTasks.Pairwise (fun p q => p.1 ≠ q.1 ∧ q.2.«namespace» ≠ some p.1)

/-! ### Task-set normalization (`normalizeTaskSet`) -/

/-- The `tasks.forEach` loop of `normalizeTaskSet`: classify each requested
identifier as a namespace to expand or a direct task to run, failing on an
identifier that is neither a task name nor a namespace label. Returns
`(taskNamespacesToExpand, tasksToRun)` in insertion order. -/
def processRequest (st : RegState) : List String → Option (List String × List String)
  | [] => some ([], [])
  | t :: ts =>
    if !(isTaskName st t) && !(isNamespaceLabel st t) then none
    else if isNamespaceLabel st t then
      (processRequest st ts).map (fun p => (t :: p.1, p.2))
    else
      (processRequest st ts).map (fun p => (p.1, t :: p.2))

/-- The single pass over all exported tasks: append every task whose
namespace is marked for expansion (an entry without a namespace never
matches). -/
def expandNamespaces (st : RegState) (toExpand : List String) : List String :=
  (st.exportedTasks.filter (fun p =>
    match p.2.«namespace» with
    | some n => decide (n ∈ toExpand)
    | none => false)).map Prod.fst

/-- Deduplication by `new Set(list)` in iteration order: keep the first
occurrence of each element. -/
def setDedup (seen : List String) : List String → List String
  | [] => []
  | a :: l => if a ∈ seen then setDedup seen l else a :: setDedup (a :: seen) l

/-- Normalization of a task-set request (`normalizeTaskSet`): classify,
expand, deduplicate; the warning flag is `taskSet.size !== tasks.length` —
the deduplicated size compared against the length of the *request*. -/
def normalizeTaskSet (st : RegState) (tasks : List String) : Option (List String × Bool) :=
  (processRequest st tasks).map (fun p =>
    let tasksToRun := p.2 ++ expandNamespaces st p.1
    let taskSet := setDedup [] tasksToRun
    (taskSet, taskSet.length != tasks.length))

/-- The spec's running example registry: tasks `a` and `b` in namespace `g1`,
task `c` without a namespace, exactly as `parseTaskFiles` builds it. -/
def exampleRegistry : RegState :=
  { exportedTasks := [("a", ⟨some "g1", "A"⟩), ("b", ⟨some "g1", "B"⟩),
      ("c", ⟨none, "C"⟩)],
    exportedTasksNamespaces := ["g1", "g1"] }

/-- The example task modules that build `exampleRegistry`. -/
def exampleModules : List (List (String × TaskEntry)) :=
  [[("a", ⟨some "g1", "A"⟩), ("b", ⟨some "g1", "B"⟩), ("c", ⟨none, "C"⟩)]]

/-- Modules where an entry named `g1` is registered after `g1` has appeared
as a namespace label; the merge accepts them. -/
def collidingModules : List (List (String × TaskEntry)) :=
  [[("a", ⟨some "g1", "A"⟩), ("g1", ⟨none, "G"⟩)]]

/-! ### Profile `exts` validation -/

/-- A JavaScript value found under a profile's `exts` key. The source
duck-types: `typeof paths.forEach !== 'function'` rejects any value
without a `forEach` method. -/
inductive ExtsVal
  | arr (paths : List (List Char))
  | str (s : List Char)
  | num (n : Int)
  | boolean (b : Bool)
deriving DecidableEq

/-- Test `typeof paths.forEach === 'function'`: of the modelled values only
arrays carry a `forEach` method. -/
def hasForEach : ExtsVal → Bool
  | .arr _ => true
  | _ => false

/-- Paths carried by an `exts` value (empty for non-arrays). -/
def extsPaths : ExtsVal → List (List Char)
  | .arr ps => ps
  | _ => []

/-- A fatal configuration error: an `exts` value that is not an array, or an
extension path whose resolved form does not exist. Both messages cite the
profile's key. -/
inductive ConfigError
  | invalidExts (key : String)
  | invalidExtPath (key : String) (p : List Char)
deriving DecidableEq

/-- The `paths.forEach` body: resolve each extension path, fail on the first
whose resolved form does not exist (`existsSync` is the filesystem
predicate), write the resolved paths back. -/
def resolveExtPaths (pathResolve : List Char → List Char)
    (home configDir : List Char) (existsSync : List Char → Bool)
    (key : String) : List (List Char) → Except ConfigError (List (List Char))
  | [] => .ok []
  | p :: ps =>
    if existsSync (resolveConfigPath pathResolve home configDir p) then
      (resolveExtPaths pathResolve home configDir existsSync key ps).map
        (fun r => resolveConfigPath pathResolve home configDir p :: r)
    else .error (.invalidExtPath key (resolveConfigPath pathResolve home configDir p))

/-- The profile-validation loop of the source: for each profile in order,
error out citing the profile's key when its `exts` value has no `forEach`,
otherwise resolve and check every listed extension path. -/
def validateProfiles (pathResolve : List Char → List Char)
    (home configDir : List Char) (existsSync : List Char → Bool) :
    List (String × ExtsVal) → Except ConfigError (List (String × ExtsVal))
  | [] => .ok []
  | (key, v) :: rest =>
    match v with
    | .arr paths =>
      match resolveExtPaths pathResolve home configDir existsSync key paths with
      | .error e => .error e
      | .ok resolved =>
        (validateProfiles pathResolve home configDir existsSync rest).map
          (fun r => (key, ExtsVal.arr resolved) :: r)
    | _ => .error (.invalidExts key)

/-! ### Cookie deletion (`delFile`) -/

/-- Result of `fs.unlinkSync`: success, or an error carrying its `code`. -/
inductive UnlinkResult
  | ok
  | err (code : String)
deriving DecidableEq

/-- Observable outcome of `delFile`: control returns to the caller, or the
process exits with the given status. -/
inductive DelOutcome
  | completed
  | exited (status : Nat)
deriving DecidableEq

/-- Control flow of `delFile file`: after the interactive prompt, delete
only on answer `y`; an `ENOENT` failure is logged as "Does not exist or
already removed." and does not exit; any other failure exits with status 1.
`answer` is the line read from the prompt and `r` the outcome of
`fs.unlinkSync file`. -/
def delFile (answer : String) (r : UnlinkResult) : DelOutcome :=
  if answer = "y" then
    match r with
    | .ok => .completed
    | .err code => if code = "ENOENT" then .completed else .exited 1
  else .completed

/-! ## Helper lemmas -/

theorem replaceFirst_of_not_containsPat (pat repl : List Char) :
    ∀ l : List Char, containsPat pat l = false → replaceFirst pat repl l = l := by
  intro l
  induction l with
  | nil => intro _; rfl
  | cons c rest ih =>
    intro h
    simp only [containsPat, Bool.or_eq_false_iff] at h
    simp only [replaceFirst, h.1, if_neg]
    simp [ih h.2]

theorem containsPat_of_head_mem (pat : List Char) (c0 : Char) (hc : pat.head? = some c0) :
    ∀ l : List Char, containsPat pat l = true → c0 ∈ l := by
  intro l
  induction l with
  | nil => intro h; simp [containsPat] at h
  | cons c rest ih =>
    intro h
    simp only [containsPat, Bool.or_eq_true] at h
    rcases h with h | h
    · cases pat with
      | nil => simp at hc
      | cons p ps =>
        simp only [List.head?] at hc
        injection hc with hc
        subst hc
        rw [List.isPrefixOf] at h
        simp only [Bool.and_eq_true, beq_iff_eq] at h
        simp [h.1]
    · exact List.mem_cons_of_mem _ (ih h)

theorem not_containsPat_of_not_mem (pat : List Char) (c0 : Char) (hc : pat.head? = some c0)
    (l : List Char) (h : c0 ∉ l) : containsPat pat l = false := by
  by_contra hcp
  exact h (containsPat_of_head_mem pat c0 hc l (by simpa using hcp))

theorem replaceFirst_first_occurrence (pat repl : List Char) (c0 : Char)
    (hc : pat.head? = some c0) :
    ∀ pre suf : List Char, c0 ∉ pre →
      replaceFirst pat repl (pre ++ pat ++ suf) = pre ++ repl ++ suf := by
  intro pre
  induction pre with
  | nil =>
    intro suf _
    cases pat with
    | nil => simp at hc
    | cons p ps =>
      simp only [List.nil_append, List.cons_append, replaceFirst]
      rw [if_pos]
      · show repl ++ (p :: (ps ++ suf)).drop (p :: ps).length = repl ++ suf
        have : p :: (ps ++ suf) = (p :: ps) ++ suf := by simp
        rw [this, List.drop_left]
      · exact List.isPrefixOf_iff_prefix.mpr ⟨suf, by simp⟩
  | cons c rest ih =>
    intro suf hmem
    have hc0 : c0 ≠ c := fun h => hmem (h ▸ List.mem_cons_self c rest)
    have hnp : ¬ pat.isPrefixOf (c :: ((rest ++ pat) ++ suf)) = true := by
      intro hpre
      cases pat with
      | nil => simp at hc
      | cons p ps =>
        simp only [List.head?] at hc; injection hc with hc; subst hc
        rw [List.isPrefixOf] at hpre
        simp only [Bool.and_eq_true, beq_iff_eq] at hpre
        exact hc0 hpre.1
    have harr : ((c :: rest) ++ pat) ++ suf = c :: ((rest ++ pat) ++ suf) := by simp
    rw [harr]
    simp only [replaceFirst]
    rw [if_neg hnp, ih suf (fun h => hmem (List.mem_cons_of_mem _ h))]
    simp

/-- Helper: a list without the brace character cannot contain the
placeholder. -/
theorem no_brace_no_placeholder (l : List Char) (h : '{' ∉ l) :
    containsPat homePlaceholder l = false :=
  not_containsPat_of_not_mem homePlaceholder '{' rfl l h

/-- Helper: the tail of `resolveConfigPath` never introduces the placeholder
when its input and the base directory contain no brace and `path.resolve`
does not introduce it. -/
theorem resolveConfigPathTail_no_placeholder
    (pathResolve : List Char → List Char)
    (hPR : ∀ s, containsPat homePlaceholder s = false →
      containsPat homePlaceholder (pathResolve s) = false)
    (configDir p1 : List Char) (hcfg : '{' ∉ configDir) (hp1 : '{' ∉ p1) :
    containsPat homePlaceholder
      (resolveConfigPathTail pathResolve configDir p1) = false := by
  unfold resolveConfigPathTail
  set p2 := if regexDotOrSlash p1 then p1 else '.' :: '/' :: p1 with hp2def
  have hp2 : '{' ∉ p2 := by
    rw [hp2def]
    split
    · exact hp1
    · simp only [List.mem_cons]
      rintro (h | (h | h))
      · exact absurd h (by decide)
      · exact absurd h (by decide)
      · exact hp1 h
  show containsPat homePlaceholder
      (if regexRelPrefix p2 = true then pathResolve (configDir ++ '/' :: p2) else p2) = false
  split
  · apply hPR
    apply no_brace_no_placeholder
    simp only [List.mem_append, List.mem_cons]
    rintro (h | (h | h))
    · exact hcfg h
    · exact absurd h (by decide)
    · exact hp2 h
  · exact no_brace_no_placeholder _ hp2

/-! ## Theorems for the claims

### Claim C5 -/

/-- C5 (counterexample): a path containing the placeholder twice still
contains a literal occurrence after `resolveConfigPath`, because JavaScript
`String.replace` with a string pattern replaces only the first occurrence. -/
theorem resolveConfigPath_retains_second_placeholder :
    containsPat homePlaceholder
      (resolveConfigPath id "/h".toList "/c".toList doubleHomePath) = true := by
  decide

/-- C5 (amended): `resolveConfigPath` replaces exactly the first occurrence of
the placeholder; a path containing it exactly once (no other `\x7b` characters
in the path, the home directory or the base directory) resolves to a path with
no literal placeholder remaining, for any external `path.resolve` that does
not itself introduce the placeholder. -/
theorem resolveConfigPath_replaces_single_placeholder
    (pathResolve : List Char → List Char)
    (hPR : ∀ s, containsPat homePlaceholder s = false →
      containsPat homePlaceholder (pathResolve s) = false)
    (home configDir pre suf : List Char)
    (hhome : '{' ∉ home) (hcfg : '{' ∉ configDir)
    (hpre : '{' ∉ pre) (hsuf : '{' ∉ suf) :
    containsPat homePlaceholder
      (resolveConfigPath pathResolve home configDir
        (pre ++ homePlaceholder ++ suf)) = false := by
  have h1 : '{' ∉ pre ++ home ++ suf := by
    simp only [List.mem_append]
    rintro ((h | h) | h)
    exacts [hpre h, hhome h, hsuf h]
  unfold resolveConfigPath
  rw [replaceFirst_first_occurrence homePlaceholder home '{' rfl pre suf hpre]
  exact resolveConfigPathTail_no_placeholder pathResolve hPR configDir _ hcfg h1

/-- C5 (witness): instantiation of the amended theorem at a concrete path with
one placeholder; the identity stands in for the external `path.resolve`. -/
theorem resolveConfigPath_replaces_single_placeholder_witness :
    containsPat homePlaceholder
      (resolveConfigPath id "/h".toList "/c".toList
        ("/x".toList ++ homePlaceholder ++ "/y".toList)) = false :=
  resolveConfigPath_replaces_single_placeholder id (fun _ h => h)
    "/h".toList "/c".toList "/x".toList "/y".toList
    (by decide) (by decide) (by decide) (by decide)

/-! ### Claim C9 -/

/-- C9 (counterexample): `resolveConfigPath` is not idempotent on its own
output: resolving the output obtained for a path carrying two placeholders
changes it again, because the first pass left a literal placeholder behind. -/
theorem resolveConfigPath_not_idempotent :
    resolveConfigPath id "/h".toList "/c".toList
        (resolveConfigPath id "/h".toList "/c".toList doubleHomePath)
      ≠ resolveConfigPath id "/h".toList "/c".toList doubleHomePath := by
  decide

/-- C9 (amended): every absolute path (leading `/`) containing no literal
placeholder is returned unchanged by `resolveConfigPath`, so resolution is
idempotent on such paths. -/
theorem resolveConfigPath_fixes_absolute (pathResolve : List Char → List Char)
    (home configDir p : List Char) (habs : p.head? = some '/')
    (hnp : containsPat homePlaceholder p = false) :
    resolveConfigPath pathResolve home configDir p = p ∧
      resolveConfigPath pathResolve home configDir
          (resolveConfigPath pathResolve home configDir p)
        = resolveConfigPath pathResolve home configDir p := by
  have hfix : resolveConfigPath pathResolve home configDir p = p := by
    cases p with
    | nil => simp at habs
    | cons c rest =>
      simp only [List.head?] at habs
      injection habs with habs
      subst habs
      unfold resolveConfigPath
      rw [replaceFirst_of_not_containsPat _ _ _ hnp]
      have h2 : regexDotOrSlash ('/' :: rest) = true := by simp [regexDotOrSlash]
      have h3 : regexRelPrefix ('/' :: rest) = false := by
        simp [ regexRelPrefix, List.isPrefixOf]
      simp [resolveConfigPathTail, h2, h3]
  exact ⟨hfix, by rw [hfix, hfix]⟩

/-- C9 (witness): the amended theorem applied to the concrete absolute path
`/a`. -/
theorem resolveConfigPath_fixes_absolute_witness :
    resolveConfigPath id "/h".toList "/c".toList "/a".toList = "/a".toList ∧
      resolveConfigPath id "/h".toList "/c".toList
          (resolveConfigPath id "/h".toList "/c".toList "/a".toList)
        = resolveConfigPath id "/h".toList "/c".toList "/a".toList :=
  resolveConfigPath_fixes_absolute id "/h".toList "/c".toList "/a".toList
    (by decide) (by decide)

/-! ### Claim C6 -/

/-- C6 (code bug): with the user omitting `profilesDir` and
`tasksDir = /base/tasks`, the default computed by
`config.tasksDir + '../.chrome-profiles'` (note the missing `/`) resolves to
`/base/tasks../.chrome-profiles` — a path inside a directory literally named
`tasks..` — and not to the sibling directory `/base/.chrome-profiles` the
comment and spec intend. -/
theorem defaultProfilesDir_not_sibling :
    defaultProfilesDir id "/h".toList "/c".toList "/base/tasks".toList
        = "/base/tasks../.chrome-profiles".toList ∧
      defaultProfilesDir id "/h".toList "/c".toList "/base/tasks".toList
        ≠ "/base/.chrome-profiles".toList := by
  decide

/-! ### Helper lemmas for registry and normalization -/

theorem isTaskName_iff (st : RegState) (x : String) :
    isTaskName st x = true ↔ x ∈ st.exportedTasks.map Prod.fst := by
  simp [isTaskName, List.any_eq_true, List.mem_map]

theorem isNamespaceLabel_iff (st : RegState) (x : String) :
    isNamespaceLabel st x = true ↔ x ∈ st.exportedTasksNamespaces := by
  simp [isNamespaceLabel, List.any_eq_true]

theorem mem_setDedup (x : String) :
    ∀ (l seen : List String), x ∈ setDedup seen l ↔ x ∈ l ∧ x ∉ seen := by
  intro l
  induction l with
  | nil => intro seen; simp [setDedup]
  | cons a l ih =>
    intro seen
    simp only [setDedup]
    split
    next h =>
      rw [ih, List.mem_cons]
      constructor
      · rintro ⟨hx, hs⟩
        exact ⟨Or.inr hx, hs⟩
      · rintro ⟨rfl | hx, hs⟩
        · exact absurd h hs
        · exact ⟨hx, hs⟩
    next h =>
      rw [List.mem_cons, ih, List.mem_cons, List.mem_cons]
      by_cases hxa : x = a
      · subst hxa
        simp [h]
      · simp [hxa]

theorem setDedup_eq_self :
    ∀ (l seen : List String), l.Nodup → (∀ x ∈ l, x ∉ seen) → setDedup seen l = l := by
  intro l
  induction l with
  | nil => intro seen _ _; rfl
  | cons a l ih =>
    intro seen hnd hs
    simp only [setDedup]
    rw [if_neg (hs a (List.mem_cons_self a l))]
    congr 1
    apply ih
    · exact (List.nodup_cons.mp hnd).2
    · intro x hx
      simp only [List.mem_cons]
      rintro (rfl | hmem)
      · exact (List.nodup_cons.mp hnd).1 hx
      · exact hs x (List.mem_cons_of_mem _ hx) hmem

theorem processRequest_eq (st : RegState) :
    ∀ tasks : List String,
      (∀ t ∈ tasks, isTaskName st t = true ∨ isNamespaceLabel st t = true) →
      processRequest st tasks
        = some (tasks.filter (fun t => isNamespaceLabel st t),
                tasks.filter (fun t => !(isNamespaceLabel st t))) := by
  intro tasks
  induction tasks with
  | nil => intro _; rfl
  | cons a ts ih =>
    intro hvalid
    have ha := hvalid a (List.mem_cons_self a ts)
    have hrest := fun t ht => hvalid t (List.mem_cons_of_mem a ht)
    simp only [processRequest]
    have hcond : (!(isTaskName st a) && !(isNamespaceLabel st a)) = false := by
      rcases ha with h | h <;> simp [h]
    rw [hcond]
    by_cases hns : isNamespaceLabel st a = true
    · simp [hns, ih hrest, List.filter_cons]
    · have hns' : isNamespaceLabel st a = false := by simpa using hns
      simp [hns', ih hrest, List.filter_cons]

theorem registerEntry_preserves_inv (st st' : RegState) (k : String) (v : TaskEntry)
    (hinv : RegistryInv st) (h : registerEntry st k v = some st') : RegistryInv st' := by
  unfold registerEntry at h
  split at h
  · exact absurd h (by simp)
  next hc =>
    injection h with h
    subst h
    unfold RegistryInv
    simp only []
    rw [List.pairwise_append]
    simp only [Bool.or_eq_true, not_or, Bool.not_eq_true] at hc
    obtain ⟨h1, h2⟩ := hc
    refine ⟨hinv, List.pairwise_singleton _ _, ?_⟩
    intro p hp q hq
    simp only [List.mem_singleton] at hq
    subst hq
    constructor
    · intro hpk
      have : isTaskName st k = true := by
        apply (isTaskName_iff st k).mpr
        exact List.mem_map.mpr ⟨p, hp, hpk⟩
      rw [this] at h1
      exact absurd h1 (by simp)
    · intro hns
      cases hv : v.«namespace» with
      | none => rw [hv] at hns; exact absurd hns (by simp)
      | some n =>
        rw [hv] at hns h2
        injection hns with hns
        have h2' : isTaskName st n = false := by simpa using h2
        have : isTaskName st n = true := by
          apply (isTaskName_iff st n).mpr
          exact List.mem_map.mpr ⟨p, hp, hns.symm⟩
        rw [this] at h2'
        exact absurd h2' (by simp)

theorem registerEntries_preserves_inv :
    ∀ (entries : List (String × TaskEntry)) (st st' : RegState),
      RegistryInv st → registerEntries st entries = some st' → RegistryInv st' := by
  intro entries
  induction entries with
  | nil =>
    intro st st' hinv h
    injection h with h
    exact h ▸ hinv
  | cons e rest ih =>
    intro st st' hinv h
    obtain ⟨k, v⟩ := e
    simp only [registerEntries] at h
    cases he : registerEntry st k v with
    | none => rw [he] at h; exact absurd h (by simp)
    | some st2 =>
      rw [he] at h
      exact ih st2 st' (registerEntry_preserves_inv st st2 k v hinv he) h

theorem registerFiles_preserves_inv :
    ∀ (modules : List (List (String × TaskEntry))) (st st' : RegState),
      RegistryInv st → registerFiles st modules = some st' → RegistryInv st' := by
  intro modules
  induction modules with
  | nil =>
    intro st st' hinv h
    injection h with h
    exact h ▸ hinv
  | cons m ms ih =>
    intro st st' hinv h
    simp only [registerFiles] at h
    cases he : registerEntries st m with
    | none => rw [he] at h; exact absurd h (by simp)
    | some st2 =>
      rw [he] at h
      exact ih st2 st' (registerEntries_preserves_inv m st st2 hinv he) h

theorem processRequest_components (st : RegState) :
    ∀ (tasks : List String) (p : List String × List String),
      processRequest st tasks = some p →
      (∀ n ∈ p.1, n ∈ tasks) ∧ (∀ t ∈ p.2, t ∈ tasks ∧ isTaskName st t = true) := by
  intro tasks
  induction tasks with
  | nil =>
    intro p hp
    injection hp with hp
    subst hp
    simp
  | cons a ts ih =>
    intro p hp
    simp only [processRequest] at hp
    by_cases h1 : (!(isTaskName st a) && !(isNamespaceLabel st a)) = true
    · rw [if_pos h1] at hp
      exact absurd hp (by simp)
    · rw [if_neg h1] at hp
      by_cases h2 : isNamespaceLabel st a = true
      · rw [if_pos h2] at hp
        cases hq : processRequest st ts with
        | none => rw [hq] at hp; exact absurd hp (by simp)
        | some q =>
          rw [hq] at hp
          simp only [Option.map_some'] at hp
          injection hp with hp
          subst hp
          obtain ⟨hq1, hq2⟩ := ih q hq
          constructor
          · intro n hn
            rcases List.mem_cons.mp hn with rfl | hn
            · exact List.mem_cons_self _ _
            · exact List.mem_cons_of_mem _ (hq1 n hn)
          · intro t ht
            obtain ⟨h3, h4⟩ := hq2 t ht
            exact ⟨List.mem_cons_of_mem _ h3, h4⟩
      · have h2' : isNamespaceLabel st a = false := by simpa using h2
        have hta : isTaskName st a = true := by
          by_contra hta
          apply h1
          have hta' : isTaskName st a = false := by simpa using hta
          simp [hta', h2']
        rw [if_neg h2] at hp
        cases hq : processRequest st ts with
        | none => rw [hq] at hp; exact absurd hp (by simp)
        | some q =>
          rw [hq] at hp
          simp only [Option.map_some'] at hp
          injection hp with hp
          subst hp
          obtain ⟨hq1, hq2⟩ := ih q hq
          constructor
          · intro n hn
            exact List.mem_cons_of_mem _ (hq1 n hn)
          · intro t ht
            rcases List.mem_cons.mp ht with rfl | ht
            · exact ⟨List.mem_cons_self _ _, hta⟩
            · obtain ⟨h3, h4⟩ := hq2 t ht
              exact ⟨List.mem_cons_of_mem _ h3, h4⟩

/-! ### Claim C1 -/

/-- C1 (code bug): on the spec's example registry and the request `[c, g1]`
the normalized result is the set `c, a, b` in order `c, a, b`, and the
combined sequence (direct `c` plus expanded `a, b`) has no duplicates — its
deduplicated length equals the combined count — yet the warning flag is
set, because the code compares the deduplicated size (3) against the
request length (2) instead of the combined count. Conversely, for the
request `[a, g1]` the direct task `a` is also reachable through `g1`, so the
combined sequence `a, a, b` does contain a duplicate, yet no warning is
emitted since its deduplicated size (2) equals the request length (2). -/
theorem normalizeTaskSet_spurious_duplicate_warning :
    (normalizeTaskSet exampleRegistry ["c", "g1"] = some (["c", "a", "b"], true)
      ∧ (setDedup [] (["c"] ++ expandNamespaces exampleRegistry ["g1"])).length
          = (["c"] ++ expandNamespaces exampleRegistry ["g1"]).length)
      ∧ (normalizeTaskSet exampleRegistry ["a", "g1"] = some (["a", "b"], false)
        ∧ (setDedup [] (["a"] ++ expandNamespaces exampleRegistry ["g1"])).length
            ≠ (["a"] ++ expandNamespaces exampleRegistry ["g1"]).length) := by
  decide

/-! ### Claim C2 -/

/-- C2 (counterexample): the merge accepts a task named `g1` registered after
`g1` already exists as a namespace label, so a task name can equal a
namespace label in a successfully merged registry — the collision check
compares only against registered task names. -/
theorem parseTaskFiles_accepts_name_namespace_collision :
    (parseTaskFiles collidingModules).map
        (fun st => (st.exportedTasks.map Prod.fst).contains "g1"
          && st.exportedTasksNamespaces.contains "g1")
      = some true := by
  decide

/-- C2 (amended): after a successful merge, no two distinct entries share a
task name and no entry's declared namespace equals the name of any entry
registered before it; a collision of a new entry's name or namespace with an
already-registered *task name* is fatal, but a task may still be named like
an already-registered namespace label. -/
theorem parseTaskFiles_registry_invariant
    (modules : List (List (String × TaskEntry))) (st : RegState)
    (h : parseTaskFiles modules = some st) : RegistryInv st := by
  unfold parseTaskFiles at h
  cases hr : registerFiles emptyRegState modules with
  | none => rw [hr] at h; exact absurd h (by simp)
  | some st0 =>
    simp only [hr] at h
    have hinv := registerFiles_preserves_inv modules emptyRegState st0
      List.Pairwise.nil hr
    by_cases he : st0.exportedTasks.isEmpty = true
    · rw [if_pos he] at h
      exact absurd h (by simp)
    · rw [if_neg he] at h
      injection h with h
      exact h ▸ hinv

/-- C2 (witness): the amended invariant holds of the registry built from the
example modules. -/
theorem parseTaskFiles_registry_invariant_witness : RegistryInv exampleRegistry :=
  parseTaskFiles_registry_invariant exampleModules exampleRegistry (by decide)

/-! ### Claim C4 -/

/-- C4: a request containing an identifier that is neither a registered task
name nor a registered namespace label makes `normalizeTaskSet` fail fatally;
no result set is produced. -/
theorem normalizeTaskSet_unknown_identifier (st : RegState) (tasks : List String)
    (t : String) (ht : t ∈ tasks) (h1 : isTaskName st t = false)
    (h2 : isNamespaceLabel st t = false) :
    normalizeTaskSet st tasks = none := by
  have hpr : ∀ l : List String, t ∈ l → processRequest st l = none := by
    intro l
    induction l with
    | nil => intro hm; simp at hm
    | cons a ts ih =>
      intro hm
      rcases List.mem_cons.mp hm with rfl | hmem
      · simp [processRequest, h1, h2]
      · simp [processRequest, ih hmem]
  simp [normalizeTaskSet, hpr tasks ht]

/-- C4 (witness): requesting the unregistered identifier `zzz` together with
the valid task `c` fails. -/
theorem normalizeTaskSet_unknown_identifier_witness :
    normalizeTaskSet exampleRegistry ["c", "zzz"] = none :=
  normalizeTaskSet_unknown_identifier exampleRegistry ["c", "zzz"] "zzz"
    (by decide) (by decide) (by decide)

/-! ### Claim C3 -/

/-- C3: on a well-formed registry, when the request has no duplicates — no
direct task name listed twice and no directly-named task whose entry's
namespace is also requested — the normalized sequence is exactly the direct
task names in request order followed by the requested namespaces' member
tasks in registry scan order. -/
theorem normalizeTaskSet_no_duplicates_order (st : RegState) (tasks : List String)
    (hvalid : ∀ t ∈ tasks, isTaskName st t = true ∨ isNamespaceLabel st t = true)
    (hwf : (st.exportedTasks.map Prod.fst).Nodup)
    (hnodup : (tasks.filter (fun t => !(isNamespaceLabel st t))).Nodup)
    (hnooverlap : ∀ p ∈ st.exportedTasks, isNamespaceLabel st p.1 = false →
      p.1 ∈ tasks → ∀ n ∈ tasks, isNamespaceLabel st n = true →
        p.2.«namespace» ≠ some n) :
    (normalizeTaskSet st tasks).map Prod.fst
      = some (tasks.filter (fun t => !(isNamespaceLabel st t))
          ++ expandNamespaces st (tasks.filter (fun t => isNamespaceLabel st t))) := by
  have hexp : (expandNamespaces st (tasks.filter (fun t => isNamespaceLabel st t))).Nodup := by
    unfold expandNamespaces
    exact List.Nodup.sublist (List.Sublist.map Prod.fst (List.filter_sublist _)) hwf
  have hdisj : (tasks.filter (fun t => !(isNamespaceLabel st t))).Disjoint
      (expandNamespaces st (tasks.filter (fun t => isNamespaceLabel st t))) := by
    intro x hxdir hxexp
    rw [List.mem_filter] at hxdir
    obtain ⟨hxt, hxns⟩ := hxdir
    have hxns' : isNamespaceLabel st x = false := by simpa using hxns
    unfold expandNamespaces at hxexp
    rw [List.mem_map] at hxexp
    obtain ⟨p, hpfilter, hpx⟩ := hxexp
    subst hpx
    rw [List.mem_filter] at hpfilter
    obtain ⟨hpmem, hpcond⟩ := hpfilter
    cases hns : p.2.«namespace» with
    | none => rw [hns] at hpcond; exact absurd hpcond (by simp)
    | some n =>
      rw [hns] at hpcond
      have hn : n ∈ tasks.filter (fun t => isNamespaceLabel st t) := by
        simpa using hpcond
      rw [List.mem_filter] at hn
      exact hnooverlap p hpmem hxns' hxt n hn.1 hn.2 hns
  unfold normalizeTaskSet
  rw [processRequest_eq st tasks hvalid]
  simp only [Option.map_some']
  congr 1
  show setDedup []
      (tasks.filter (fun t => !(isNamespaceLabel st t))
        ++ expandNamespaces st (tasks.filter (fun t => isNamespaceLabel st t)))
    = tasks.filter (fun t => !(isNamespaceLabel st t))
        ++ expandNamespaces st (tasks.filter (fun t => isNamespaceLabel st t))
  apply setDedup_eq_self
  · exact List.Nodup.append hnodup hexp hdisj
  · intro x _ hx
    simp at hx

/-- C3 (witness): the theorem applied to the example registry and the request
`[c, g1]` yields the sequence `c, a, b`. -/
theorem normalizeTaskSet_no_duplicates_order_witness :
    (normalizeTaskSet exampleRegistry ["c", "g1"]).map Prod.fst
      = some ["c", "a", "b"] := by
  rw [normalizeTaskSet_no_duplicates_order exampleRegistry ["c", "g1"]
    (by decide) (by decide) (by decide) (by decide)]
  rfl

/-! ### Claim C10 -/

/-- C10: whenever normalization succeeds, every element of the result is a
registered task name (never a bare namespace label), and it got there either
as a directly-requested identifier or as the key of an entry whose declared
namespace (necessarily `some …`, so entries without a namespace are never
added by expansion) is one of the requested identifiers. -/
theorem normalizeTaskSet_result_registered (st : RegState) (tasks : List String)
    (res : List String × Bool) (h : normalizeTaskSet st tasks = some res) :
    ∀ x ∈ res.1, x ∈ st.exportedTasks.map Prod.fst ∧
      (x ∈ tasks ∨ x ∈ (st.exportedTasks.filter (fun p =>
          match p.2.«namespace» with
          | some n => decide (n ∈ tasks)
          | none => false)).map Prod.fst) := by
  intro x hx
  unfold normalizeTaskSet at h
  cases hp : processRequest st tasks with
  | none => rw [hp] at h; exact absurd h (by simp)
  | some pq =>
    rw [hp] at h
    simp only [Option.map_some'] at h
    injection h with h
    subst h
    obtain ⟨hns_mem, hdir⟩ := processRequest_components st tasks pq hp
    have hx2 : x ∈ setDedup [] (pq.2 ++ expandNamespaces st pq.1) := hx
    have hx3 : x ∈ pq.2 ++ expandNamespaces st pq.1 :=
      ((mem_setDedup x _ _).mp hx2).1
    rcases List.mem_append.mp hx3 with hxd | hxe
    · obtain ⟨hxt, hxtask⟩ := hdir x hxd
      exact ⟨(isTaskName_iff st x).mp hxtask, Or.inl hxt⟩
    · unfold expandNamespaces at hxe
      rw [List.mem_map] at hxe
      obtain ⟨p, hpf, hpx⟩ := hxe
      subst hpx
      rw [List.mem_filter] at hpf
      obtain ⟨hpmem, hpcond⟩ := hpf
      refine ⟨List.mem_map.mpr ⟨p, hpmem, rfl⟩, Or.inr ?_⟩
      rw [List.mem_map]
      refine ⟨p, ?_, rfl⟩
      rw [List.mem_filter]
      refine ⟨hpmem, ?_⟩
      cases hns : p.2.«namespace» with
      | none => rw [hns] at hpcond; exact absurd hpcond (by simp)
      | some n =>
        rw [hns] at hpcond
        have hn : n ∈ pq.1 := by simpa using hpcond
        simpa using hns_mem n hn

/-- C10 (witness): in the normalized set for the request `[c, g1]` on the
example registry, the element `a` is a registered task name reachable
through the requested namespace `g1`. -/
theorem normalizeTaskSet_result_registered_witness :
    "a" ∈ exampleRegistry.exportedTasks.map Prod.fst ∧
      ("a" ∈ ["c", "g1"] ∨ "a" ∈ (exampleRegistry.exportedTasks.filter (fun p =>
          match p.2.«namespace» with
          | some n => decide (n ∈ ["c", "g1"])
          | none => false)).map Prod.fst) :=
  normalizeTaskSet_result_registered exampleRegistry ["c", "g1"]
    (["c", "a", "b"], true) (by decide) "a" (by decide)

/-! ### Claim C7 -/

theorem resolveExtPaths_all_exist (pathResolve : List Char → List Char)
    (home configDir : List Char) (existsSync : List Char → Bool) (key : String) :
    ∀ paths : List (List Char),
      (∀ p ∈ paths, existsSync (resolveConfigPath pathResolve home configDir p) = true) →
      resolveExtPaths pathResolve home configDir existsSync key paths
        = .ok (paths.map (resolveConfigPath pathResolve home configDir)) := by
  intro paths
  induction paths with
  | nil => intro _; rfl
  | cons p ps ih =>
    intro hall
    simp only [resolveExtPaths]
    rw [if_pos (hall p (List.mem_cons_self p ps)),
      ih (fun q hq => hall q (List.mem_cons_of_mem p hq))]
    rfl

/-- C7: when every profile before it is fully valid, a profile whose `exts`
value has no `forEach` method (it is not an array — e.g. a single string)
makes configuration validation fail fatally with the error citing that
profile's key. -/
theorem validateProfiles_invalid_exts_cites_key (pathResolve : List Char → List Char)
    (home configDir : List Char) (existsSync : List Char → Bool) :
    ∀ (pre : List (String × ExtsVal)) (key : String) (v : ExtsVal)
      (post : List (String × ExtsVal)),
      hasForEach v = false →
      (∀ q ∈ pre, hasForEach q.2 = true ∧
        ∀ p ∈ extsPaths q.2,
          existsSync (resolveConfigPath pathResolve home configDir p) = true) →
      validateProfiles pathResolve home configDir existsSync (pre ++ (key, v) :: post)
        = .error (.invalidExts key) := by
  intro pre
  induction pre with
  | nil =>
    intro key v post hbad _
    simp only [List.nil_append, validateProfiles]
    cases v with
    | arr paths => exact absurd hbad (by simp [hasForEach])
    | str s => rfl
    | num n => rfl
    | boolean b => rfl
  | cons q pre' ih =>
    intro key v post hbad hpre
    obtain ⟨qk, qv⟩ := q
    obtain ⟨hqfe, hqpaths⟩ := hpre (qk, qv) (List.mem_cons_self _ _)
    have hpre' := fun q hq => hpre q (List.mem_cons_of_mem _ hq)
    cases qv with
    | arr paths =>
      simp only [List.cons_append, validateProfiles]
      rw [resolveExtPaths_all_exist pathResolve home configDir existsSync qk paths hqpaths]
      show (validateProfiles pathResolve home configDir existsSync
            (pre' ++ (key, v) :: post)).map
          (fun r => (qk, ExtsVal.arr
            (paths.map (resolveConfigPath pathResolve home configDir))) :: r)
        = Except.error (ConfigError.invalidExts key)
      rw [ih key v post hbad hpre']
      rfl
    | str s => exact absurd hqfe (by simp [hasForEach])
    | num n => exact absurd hqfe (by simp [hasForEach])
    | boolean b => exact absurd hqfe (by simp [hasForEach])

/-- C7 (witness): a configuration with a valid profile `p1` followed by a
profile `p2` whose `exts` is the string `x` fails citing `p2`. -/
theorem validateProfiles_invalid_exts_cites_key_witness :
    validateProfiles id "/h".toList "/c".toList (fun _ => true)
        ([("p1", ExtsVal.arr [])] ++ ("p2", ExtsVal.str "x".toList) :: [])
      = .error (.invalidExts "p2") :=
  validateProfiles_invalid_exts_cites_key id "/h".toList "/c".toList (fun _ => true)
    [("p1", ExtsVal.arr [])] "p2" (ExtsVal.str "x".toList) [] (by decide) (by decide)

/-! ### Claim C8 -/

/-- C8: a confirmed deletion hitting `ENOENT` (the file does not exist) does
not terminate the process, while a confirmed deletion failing with any other
code (such as a permissions error) exits with status 1. -/
theorem delFile_enoent_noop_other_fatal (code : String) (hcode : code ≠ "ENOENT") :
    delFile "y" (.err "ENOENT") = .completed
      ∧ delFile "y" (.err code) = .exited 1 := by
  constructor
  · rfl
  · unfold delFile
    rw [if_pos rfl]
    show (if code = "ENOENT" then DelOutcome.completed else DelOutcome.exited 1)
      = DelOutcome.exited 1
    rw [if_neg hcode]

/-- C8 (witness): instantiated at the permissions-error code `EACCES`. -/
theorem delFile_enoent_noop_other_fatal_witness :
    delFile "y" (.err "ENOENT") = .completed
      ∧ delFile "y" (.err "EACCES") = .exited 1 :=
  delFile_enoent_noop_other_fatal "EACCES" (by decide)
